import Mathlib

/-!
Verification of the label deduplication/clustering subsystem of
`src/deduplicator.py`.

The Python code is shallowly embedded below.  Strings are modelled as
`String` / `List Char`; `pandas` data frames are modelled as lists of rows,
one row being a list of optional cells (`none` models a missing value /
`NaN`).  Python's `re` pattern
`^Group\s+(\d+)\s+(.+?):\s*(.+?)\s*$` is embedded as a deterministic
function (`lineMatch`) obtained by unfolding the backtracking semantics of
this particular pattern; the derivation is documented at the definition.
Whitespace classes model the ASCII / Latin-1 part of Python's `str.strip`,
`str.splitlines` and `\s`; the inputs manipulated by the program are plain
ASCII protocol text, for which these classes coincide with Python's.
-/

namespace Dedup

/-- Characters treated as whitespace by Python's `str.strip()` and by `\s`
(ASCII / Latin-1 fragment): TAB, LF, VT, FF, CR, FS, GS, RS, US, space,
NEL, NBSP. -/
def pyIsSpace (c : Char) : Bool :=
  decide (c.toNat ∈ ([9, 10, 11, 12, 13, 28, 29, 30, 31, 32, 133, 160] : List Nat))

/-- Characters on which Python's `str.splitlines()` breaks lines:
LF, VT, FF, CR, FS, GS, RS, NEL, LINE SEPARATOR, PARAGRAPH SEPARATOR
(CR LF is consumed as a single break by `splitLinesAux`). -/
def isLineBreak (c : Char) : Bool :=
  decide (c.toNat ∈ ([10, 11, 12, 13, 28, 29, 30, 133, 8232, 8233] : List Nat))

/-- ASCII decimal digit, the `\d` class as used by the program's patterns. -/
def isDigitC (c : Char) : Bool :=
  decide (48 ≤ c.toNat ∧ c.toNat ≤ 57)

/-- Numeric value of a run of decimal digits, Python `int(...)` on a digit
string. -/
def digitsVal (cs : List Char) : Nat :=
  cs.foldl (fun a c => a * 10 + (c.toNat - 48)) 0

/-- Remove trailing whitespace, second half of Python `str.strip()`. -/
def dropTrailingWs (cs : List Char) : List Char :=
  ((cs.reverse.dropWhile pyIsSpace)).reverse

/-- Python `str.strip()` on a character list. -/
def pyStripL (cs : List Char) : List Char :=
  dropTrailingWs (cs.dropWhile pyIsSpace)

/-- Python `str.strip()` on a `String`. -/
def pyStrip (s : String) : String :=
  String.mk (pyStripL s.data)

/-- Python `str.lower()` (ASCII fragment) on a character list. -/
def lowerData (s : String) : List Char :=
  s.data.map Char.toLower

/-- Python `str.splitlines()`: accumulate the current line (reversed) and
emit it at each line-break character; the Boolean records whether the
previous character was a CR, so that a CR LF pair counts as a single
break; a non-empty final line without terminator is also emitted. -/
def splitLinesAux : List Char → List Char → Bool → List (List Char)
  | [], acc, _ => if acc.isEmpty then [] else [acc.reverse]
  | c :: rest, acc, prevCR =>
    if c = '\n' ∧ prevCR then
      splitLinesAux rest acc false
    else if c = '\r' then
      acc.reverse :: splitLinesAux rest [] true
    else if isLineBreak c then
      acc.reverse :: splitLinesAux rest [] false
    else
      splitLinesAux rest (c :: acc) false

/-- Python `str.splitlines()`. -/
def splitLines (cs : List Char) : List (List Char) :=
  splitLinesAux cs [] false

/-- Python `str.split(",")`: split at every comma, keeping empty pieces. -/
def splitComma : List Char → List (List Char)
  | [] => [[]]
  | c :: rest =>
    if c = ',' then
      [] :: splitComma rest
    else
      match splitComma rest with
      | [] => [[c]]
      | p :: ps => (c :: p) :: ps

/-- Scan for the first `':'` (at position ≥ 1 of the name candidate) whose
remainder is non-empty; returns the characters before it and after it.
This realizes the lazy group `(.+?)` followed by `:` in the line pattern:
the shortest name such that the rest of the pattern (`\s*(.+?)\s*$`, which
matches exactly the non-empty strings) can succeed. -/
def scanColon : List Char → Option (List Char × List Char)
  | [] => none
  | c :: rest =>
    if c = ':' ∧ rest ≠ [] then
      some ([], rest)
    else
      match scanColon rest with
      | some (pre, post) => some (c :: pre, post)
      | none => none

/-- Split `t` as `name ++ ':' ++ u` with `name` non-empty and `u` non-empty,
choosing the first such `':'` (lazy `(.+?)` semantics). -/
def nameSplit : List Char → Option (List Char × List Char)
  | [] => none
  | c :: rest =>
    match scanColon rest with
    | some (pre, post) => some (c :: pre, post)
    | none => none

/-- Backtracking over the length of the `\s+` run before the name: the
regex engine tries the greedy (longest) run first and shortens it down
to one character.  `tryPs r3 p` tries runs of length `p, p-1, ..., 1`. -/
def tryPs (r3 : List Char) : Nat → Option (List Char × List Char)
  | 0 => none
  | p + 1 =>
    match nameSplit (r3.drop (p + 1)) with
    | some res => some res
    | none => tryPs r3 p

/-- Python `re.search(r"\d+", s)`: the first maximal run of digits. -/
def firstDigitRun (cs : List Char) : Option (List Char) :=
  let rest := cs.dropWhile (fun c => ¬ isDigitC c)
  if rest.isEmpty then none else some (rest.takeWhile isDigitC)

/-- Python `s.split(":", 1)[1]`: everything after the first `':'`
(returns `[]` when there is no colon; the program only uses this under a
`startswith("new:")` guard, where a colon is present). -/
def afterFirstColon : List Char → List Char
  | [] => []
  | c :: rest => if c = ':' then rest else afterFirstColon rest

/-- Python `sep.join(xs)`: empty for no pieces, the piece itself for one,
and pieces interleaved with the separator otherwise. -/
def joinSep (sep : List Char) : List (List Char) → List Char
  | [] => []
  | [x] => x
  | x :: xs => x ++ sep ++ joinSep sep xs

/-- One taxonomy group: `{"group": gnum, "name": gname, "labels": labels}`
as built by `parse_groups_text` and mutated by `process_file`. -/
structure Group where
  group : Nat
  name : String
  labels : List String
deriving DecidableEq, Repr

/-- Match of one (already stripped, non-empty) line against the pattern
`^Group\s+(\d+)\s+(.+?):\s*(.+?)\s*$` of `parse_groups_text`, followed by
the per-line post-processing (`int` on the digits, `.strip()` on the name,
comma-split / strip / drop-empties on the labels).

The deterministic unfolding of the backtracking regex engine on this
pattern is: the literal `Group`; then `\s+` and `\d+` are maximal runs
(their character classes are disjoint from each other's followers); then
the engine tries the `\s+` run before the name from its maximal length
down to 1, and for each, the lazy name is everything up to the first later
`':'` whose remainder is non-empty (the trailing `\s*(.+?)\s*$` matches
exactly the non-empty strings, with `(.+?)` capturing the remainder
stripped of surrounding whitespace — or a single whitespace character when
the remainder is all whitespace, which yields the same label list). -/
def lineMatch (line : List Char) : Option Group :=
  if "Group".data.isPrefixOf line then
    let r1 := line.drop 5
    let r2 := r1.dropWhile pyIsSpace
    if (r1.takeWhile pyIsSpace).isEmpty then none else
    let ds := r2.takeWhile isDigitC
    let r3 := r2.dropWhile isDigitC
    if ds.isEmpty then none else
    match tryPs r3 (r3.takeWhile pyIsSpace).length with
    | none => none
    | some (nameRaw, u) =>
      some
        { group := digitsVal ds
          name := String.mk (pyStripL nameRaw)
          labels :=
            ((splitComma (pyStripL u)).map fun l => String.mk (pyStripL l)).filter
              fun s => s ≠ "" }
  else none

/-- Stable insertion of `g` after every element whose key is ≤ its key. -/
def insertSorted (g : Group) : List Group → List Group
  | [] => [g]
  | h :: t => if h.group ≤ g.group then h :: insertSorted g t else g :: h :: t

/-- Python `sorted(groups, key=lambda x: x["group"])`: a stable sort by
the claimed group number. -/
def sortGroups (gs : List Group) : List Group :=
  gs.foldl (fun acc g => insertSorted g acc) []

/-- Renumbering loop `for i, g in enumerate(groups, start=k): g["group"] = i`. -/
def renumberFrom (k : Nat) : List Group → List Group
  | [] => []
  | g :: gs => { g with group := k } :: renumberFrom (k + 1) gs

/-- `parse_groups_text` (src/deduplicator.py lines 35-52): match each
stripped non-blank line, sort by claimed number, renumber densely from 1. -/
def parseGroupsText (s : String) : List Group :=
  renumberFrom 1 (sortGroups ((splitLines s.data).filterMap fun raw =>
    let line := pyStripL raw
    if line.isEmpty then none else lineMatch line))

/-- Decimal digits of `n`, most significant first; the fuel argument is
always sufficient (each step divides by 10), keeping the recursion
structural. -/
def natDigitsAux : Nat → Nat → List Char
  | 0, _ => []
  | fuel + 1, n =>
    if n < 10 then [Char.ofNat (48 + n)]
    else natDigitsAux fuel (n / 10) ++ [Char.ofNat (48 + n % 10)]

/-- Python `str(n)` for a non-negative integer. -/
def natRepr (n : Nat) : List Char :=
  natDigitsAux (n + 1) n

/-- `groups_summary_for_prompt` (lines 54-60): one line per group,
`Group {g['group']} {g['name']}: {example_str}` with at most
`maxExamples` example labels, or `(none yet)` when the group is empty. -/
def summaryLine (maxExamples : Nat) (g : Group) : List Char :=
  let ex := g.labels.take maxExamples
  let exampleStr :=
    if ex.isEmpty then "(none yet)".data
    else joinSep ", ".data (ex.map String.data)
  "Group ".data ++ natRepr g.group ++ [' '] ++ g.name.data ++ [':', ' '] ++ exampleStr

/-- `groups_summary_for_prompt`: the lines joined by `"\n"`. -/
def groupsSummary (gs : List Group) (maxExamples : Nat) : String :=
  String.mk (joinSep ['\n'] (gs.map (summaryLine maxExamples)))

/-- Singleton-fallback loop of `process_file` (lines 176-177):
`groups.append({"group": i, "name": lab, "labels": [lab]})` for
`i, lab in enumerate(seed_labels, start=k)`. -/
def singletonsFrom (k : Nat) : List String → List Group
  | [] => []
  | lab :: labs => ⟨k, lab, [lab]⟩ :: singletonsFrom (k + 1) labs

/-- Seed phase of `process_file` (lines 172-177): parse the seed response;
when nothing parses, fall back to one singleton group per seed label. -/
def seedPhase (seedText : String) (seedLabels : List String) : List Group :=
  if (parseGroupsText seedText).isEmpty then singletonsFrom 1 seedLabels
  else parseGroupsText seedText

/-- The existing-group branch of the merge loop (lines 187-193): the
decision targets group `num` when, lower-cased, it starts with `"group"`,
contains a digit run, and `1 <= num <= n` for the current group count `n`. -/
def decisionTarget (n : Nat) (decision : String) : Option Nat :=
  if "group".data.isPrefixOf (lowerData decision) then
    match firstDigitRun decision.data with
    | some ds => if 1 ≤ digitsVal ds ∧ digitsVal ds ≤ n then some (digitsVal ds) else none
    | none => none
  else none

/-- Name of a freshly created group (lines 194-197): the text after
`"new:"` stripped — falling back to the label when empty or when the
decision does not start with `"new:"`. -/
def newGroupName (lab decision : String) : String :=
  if "new:".data.isPrefixOf (lowerData decision) then
    let r := String.mk (pyStripL (afterFirstColon decision.data))
    if r = "" then lab else r
  else lab

/-- In-place `groups[k]["labels"].append(lab)`. -/
def appendToGroup (gs : List Group) (k : Nat) (lab : String) : List Group :=
  match gs, k with
  | [], _ => []
  | g :: rest, 0 => { g with labels := g.labels ++ [lab] } :: rest
  | g :: rest, k + 1 => g :: appendToGroup rest k lab

/-- One iteration of the fan-in merge loop (lines 186-199). -/
def applyDecision (gs : List Group) (lab decision : String) : List Group :=
  match decisionTarget gs.length decision with
  | some num => appendToGroup gs (num - 1) lab
  | none => gs ++ [⟨gs.length + 1, newGroupName lab decision, [lab]⟩]

/-- The sequential fan-in merge of all `(label, decision)` results
(lines 186-199), applied in input order. -/
def mergeDecisions (gs : List Group) (ds : List (String × String)) : List Group :=
  ds.foldl (fun acc ld => applyDecision acc ld.1 ld.2) gs

/-- Modelled from the spec: the merge as §4.4 of the spec describes it,
with the valid range `[1, N]` frozen at `N =` the group count before the
batch's mutations began, rather than the live group count.  Used only to
compare the spec's description against `mergeDecisions`. -/
def mergeDecisionsFrozen (gs : List Group) (ds : List (String × String)) : List Group :=
  let n := gs.length
  ds.foldl
    (fun acc ld =>
      match decisionTarget n ld.2 with
      | some num => appendToGroup acc (num - 1) ld.1
      | none => acc ++ [⟨acc.length + 1, newGroupName ld.1 ld.2, [ld.1]⟩])
    gs

/-- `SEED_SIZE` from the configuration block (line 16). -/
def SEED_SIZE : Nat := 200

/-- The taxonomy produced by `process_file` for one file, as a function of
the (extracted) seed response text, the per-label decision function of the
mocked deterministic LLM, and the ordered label sequence of the input
table (lines 164-199). -/
def pipelineGroups (seedText : String) (respond : String → String)
    (allLabels : List String) : List Group :=
  mergeDecisions (seedPhase seedText (allLabels.take SEED_SIZE))
    ((allLabels.drop SEED_SIZE).map fun l => (l, respond l))

/-- All label occurrences of a taxonomy, in group order then label order. -/
def labelsOf (gs : List Group) : List String :=
  (gs.map Group.labels).flatten

/-- Group ids are exactly `1, 2, ..., N` in list order. -/
abbrev idsContiguous (gs : List Group) : Prop :=
  gs.map Group.group = List.range' 1 gs.length

/-- One table row: the cell of each column in order; `none` models a
missing value (`NaN`). -/
def Row : Type := List (Option String)

instance : DecidableEq Row :=
  inferInstanceAs (DecidableEq (List (Option String)))

/-- Pandas `.astype(str)` on one cell: a missing value prints as `"nan"`. -/
def astypeStr : Option String → String
  | some s => s
  | none => "nan"

/-- The exact first-pass match of `pick_and_pop_row` (line 63):
`df[category_col] == label` on one row. -/
def matchesExact (catIdx : Nat) (lab : String) (r : Row) : Bool :=
  r.getD catIdx none == some lab

/-- The lenient second-pass match of `pick_and_pop_row` (line 65):
case/whitespace-insensitive comparison after `astype(str)`. -/
def matchesLenient (catIdx : Nat) (lab : String) (r : Row) : Bool :=
  (pyStrip (astypeStr (r.getD catIdx none))).data.map Char.toLower
    == (pyStrip lab).data.map Char.toLower

/-- Index of the first row satisfying `p` (`matches[0]` on the boolean
mask index). -/
def firstMatchIdx (p : Row → Bool) : List Row → Option Nat
  | [] => none
  | r :: rs => if p r then some 0 else (firstMatchIdx p rs).map (· + 1)

/-- `pick_and_pop_row` (lines 62-71): find the first exact match, else the
first lenient match; pop that row from the working pool; `(none, pool)`
when neither pass matches. -/
def pickAndPopRow (catIdx : Nat) (lab : String) (pool : List Row) :
    Option Row × List Row :=
  match firstMatchIdx (matchesExact catIdx lab) pool with
  | some i => (pool[i]?, pool.eraseIdx i)
  | none =>
    match firstMatchIdx (matchesLenient catIdx lab) pool with
    | some i => (pool[i]?, pool.eraseIdx i)
    | none => (none, pool)

/-- The synthesized row of lines 208-209: every column empty except the
category column, which holds the label. -/
def synthRow (ncols catIdx : Nat) (lab : String) : Row :=
  (List.replicate ncols (none : Option String)).set catIdx (some lab)

/-- One output row of the materializer: the picked or synthesized cells
plus the `"Group"` and `"Group Name"` stamps (lines 210-213). -/
structure OutRow where
  cells : Row
  group : Nat
  gname : String
deriving DecidableEq

/-- Inner loop of the materializer (lines 205-213): one output row per
label of the group, threading the working pool. -/
def matLabels (catIdx ncols gnum : Nat) (gname : String) :
    List String → List Row → List Row × List OutRow
  | [], pool => (pool, [])
  | lab :: rest, pool =>
    let pr := pickAndPopRow catIdx lab pool
    let row := pr.1.getD (synthRow ncols catIdx lab)
    let tail := matLabels catIdx ncols gnum gname rest pr.2
    (tail.1, ⟨row, gnum, gname⟩ :: tail.2)

/-- Outer loop of the materializer (lines 201-213): groups in order,
labels in order within each group. -/
def matGroups (catIdx ncols : Nat) : List Group → List Row → List OutRow
  | [], _ => []
  | g :: gs, pool =>
    let step := matLabels catIdx ncols g.group g.name g.labels pool
    step.2 ++ matGroups catIdx ncols gs step.1

/-- A name is reproduced by the line pattern when it is non-empty,
strip-invariant, colon-free and break-free. -/
abbrev GoodName (s : String) : Prop :=
  s ≠ "" ∧ pyStripL s.data = s.data ∧ ∀ c ∈ s.data, c ≠ ':' ∧ isLineBreak c = false

/-- A label is reproduced by the comma-split when it is non-empty,
strip-invariant, comma-free and break-free. -/
abbrev GoodLabel (s : String) : Prop :=
  s ≠ "" ∧ pyStripL s.data = s.data ∧ ∀ c ∈ s.data, c ≠ ',' ∧ isLineBreak c = false

/-- A group survives the summary/parse round trip when its name and labels
are well-formed and it has between 1 and 6 labels (the summary renders at
most `max_examples_per_group = 6` examples, and an empty group renders as
"(none yet)"). -/
abbrev GoodGroup (g : Group) : Prop :=
  GoodName g.name ∧ 1 ≤ g.labels.length ∧ g.labels.length ≤ 6 ∧
    ∀ l ∈ g.labels, GoodLabel l

theorem digit_toNat (d : Nat) (h : d < 10) : (Char.ofNat (48 + d)).toNat = 48 + d := by
  interval_cases d <;> decide

theorem digit_not_space {c : Char} (h : isDigitC c = true) : pyIsSpace c = false := by
  have h' : 48 ≤ c.toNat ∧ c.toNat ≤ 57 := by
    simpa [isDigitC] using h
  refine decide_eq_false ?_
  intro hmem
  simp only [List.mem_cons, List.not_mem_nil, or_false] at hmem
  omega

theorem digit_not_break {c : Char} (h : isDigitC c = true) : isLineBreak c = false := by
  have h' : 48 ≤ c.toNat ∧ c.toNat ≤ 57 := by
    simpa [isDigitC] using h
  refine decide_eq_false ?_
  intro hmem
  simp only [List.mem_cons, List.not_mem_nil, or_false] at hmem
  omega

theorem space_not_digit {c : Char} (h : pyIsSpace c = true) : isDigitC c = false := by
  have h' : c.toNat ∈ ([9, 10, 11, 12, 13, 28, 29, 30, 31, 32, 133, 160] : List Nat) := by
    simpa [pyIsSpace] using h
  simp only [List.mem_cons, List.not_mem_nil, or_false] at h'
  simp only [isDigitC, decide_eq_false_iff_not]
  omega

theorem natDigitsAux_irrel :
    ∀ n fuel fuel', n < fuel → n < fuel' →
      natDigitsAux fuel n = natDigitsAux fuel' n := by
  intro n
  induction n using Nat.strong_induction_on with
  | _ n ih =>
    intro fuel fuel' hf hf'
    cases fuel with
    | zero => omega
    | succ f =>
      cases fuel' with
      | zero => omega
      | succ f' =>
        by_cases h10 : n < 10
        · simp [natDigitsAux, h10]
        · have hd : n / 10 < n := Nat.div_lt_self (by omega) (by omega)
          simp only [natDigitsAux, if_neg h10]
          rw [ih (n / 10) hd f f' (by omega) (by omega)]

theorem natDigitsAux_eq_natRepr {n fuel : Nat} (h : n < fuel) :
    natDigitsAux fuel n = natRepr n :=
  natDigitsAux_irrel n fuel (n + 1) h (by omega)

theorem digitsVal_append_digit (xs : List Char) (c : Char) :
    digitsVal (xs ++ [c]) = 10 * digitsVal xs + (c.toNat - 48) := by
  unfold digitsVal
  rw [List.foldl_append]
  simp [List.foldl]
  omega

theorem digitsVal_natRepr : ∀ n, digitsVal (natRepr n) = n := by
  intro n
  induction n using Nat.strong_induction_on with
  | _ n ih =>
    by_cases h10 : n < 10
    · show digitsVal (natDigitsAux (n + 1) n) = n
      simp only [natDigitsAux, if_pos h10]
      simp [digitsVal, List.foldl, digit_toNat n h10]
    · have hd : n / 10 < n := Nat.div_lt_self (by omega) (by omega)
      show digitsVal (natDigitsAux (n + 1) n) = n
      simp only [natDigitsAux, if_neg h10]
      rw [natDigitsAux_eq_natRepr (by omega), digitsVal_append_digit, ih (n / 10) hd,
        digit_toNat (n % 10) (by omega)]
      omega

theorem natRepr_ne_nil (n : Nat) : natRepr n ≠ [] := by
  unfold natRepr natDigitsAux
  by_cases h : n < 10 <;> simp [h]

theorem natRepr_digits : ∀ n, ∀ c ∈ natRepr n, isDigitC c = true := by
  intro n
  induction n using Nat.strong_induction_on with
  | _ n ih =>
    intro c hc
    by_cases h10 : n < 10
    · rw [show natRepr n = natDigitsAux (n + 1) n from rfl] at hc
      simp only [natDigitsAux, if_pos h10, List.mem_singleton] at hc
      subst hc
      simp only [isDigitC, digit_toNat n h10, decide_eq_true_eq]
      omega
    · have hd : n / 10 < n := Nat.div_lt_self (by omega) (by omega)
      rw [show natRepr n = natDigitsAux (n + 1) n from rfl] at hc
      simp only [natDigitsAux, if_neg h10, natDigitsAux_eq_natRepr hd,
        List.mem_append, List.mem_singleton] at hc
      cases hc with
      | inl h => exact ih (n / 10) hd c h
      | inr h =>
        subst h
        simp only [isDigitC, digit_toNat (n % 10) (by omega), decide_eq_true_eq]
        omega

theorem length_dropWhileC_le (p : Char → Bool) :
    ∀ l : List Char, (l.dropWhile p).length ≤ l.length := by
  intro l
  induction l with
  | nil => simp
  | cons a l ih =>
    by_cases ha : p a
    · rw [List.dropWhile_cons_of_pos ha]
      calc (l.dropWhile p).length ≤ l.length := ih
        _ ≤ (a :: l).length := by simp
    · rw [List.dropWhile_cons_of_neg ha]

theorem length_dropTrailingWs_le (l : List Char) :
    (dropTrailingWs l).length ≤ l.length := by
  unfold dropTrailingWs
  calc ((l.reverse.dropWhile pyIsSpace)).reverse.length
      = (l.reverse.dropWhile pyIsSpace).length := by simp
    _ ≤ l.reverse.length := length_dropWhileC_le _ _
    _ = l.length := by simp

theorem trimInv_head {l : List Char} (h : pyStripL l = l) :
    ∀ c t, l = c :: t → pyIsSpace c = false := by
  intro c t hl
  by_contra hsp
  have hsp' : pyIsSpace c = true := by
    cases hb : pyIsSpace c with
    | false => exact absurd hb hsp
    | true => rfl
  have hlen : (pyStripL l).length < l.length := by
    subst hl
    unfold pyStripL
    rw [List.dropWhile_cons_of_pos (by simp [hsp'])]
    calc (dropTrailingWs (t.dropWhile pyIsSpace)).length
        ≤ (t.dropWhile pyIsSpace).length := length_dropTrailingWs_le _
      _ ≤ t.length := length_dropWhileC_le _ _
      _ < (c :: t).length := by simp
  rw [h] at hlen
  omega

theorem dropWhile_head_false {p : Char → Bool} :
    ∀ (l : List Char) (c : Char) (t : List Char),
      l.dropWhile p = c :: t → p c = false := by
  intro l
  induction l with
  | nil => intro c t h; simp at h
  | cons a l ih =>
    intro c t h
    by_cases ha : p a
    · rw [List.dropWhile_cons_of_pos ha] at h
      exact ih c t h
    · rw [List.dropWhile_cons_of_neg ha] at h
      cases h
      cases hb : p a with
      | false => rfl
      | true => exact absurd hb ha

theorem trimInv_getLast {l : List Char} (h : pyStripL l = l) :
    ∀ e, l.getLast? = some e → pyIsSpace e = false := by
  intro e he
  have hrev : l.reverse = (l.dropWhile pyIsSpace).reverse.dropWhile pyIsSpace := by
    conv_lhs => rw [← h]
    unfold pyStripL dropTrailingWs
    rw [List.reverse_reverse]
  have hh : l.reverse.head? = some e := by
    rw [List.head?_reverse, he]
  cases hc : l.reverse with
  | nil => rw [hc] at hh; simp at hh
  | cons x r =>
    rw [hc] at hh
    have hx : x = e := by
      simpa using hh
    subst hx
    rw [hc] at hrev
    exact dropWhile_head_false _ x r hrev.symm

theorem pyStripL_cons_of_space {c : Char} {x : List Char} (h : pyIsSpace c = true) :
    pyStripL (c :: x) = pyStripL x := by
  unfold pyStripL
  rw [List.dropWhile_cons_of_pos (by simp [h])]

theorem pyStripL_cons_eq {c : Char} {rest : List Char} (hc : pyIsSpace c = false)
    (hl : ∀ e, (c :: rest).getLast? = some e → pyIsSpace e = false) :
    pyStripL (c :: rest) = c :: rest := by
  unfold pyStripL
  rw [List.dropWhile_cons_of_neg (by simp [hc])]
  unfold dropTrailingWs
  cases hrev : (c :: rest).reverse with
  | nil => exact absurd (congrArg List.length hrev) (by simp)
  | cons e r =>
    have he : (c :: rest).getLast? = some e := by
      rw [List.getLast?_eq_head?_reverse, hrev]
      rfl
    have hpe := hl e he
    rw [List.dropWhile_cons_of_neg (by simp [hpe]), ← hrev, List.reverse_reverse]

theorem renumberFrom_map_group (gs : List Group) :
    ∀ k, (renumberFrom k gs).map Group.group = List.range' k gs.length := by
  induction gs with
  | nil => intro k; rfl
  | cons g gs ih =>
    intro k
    simp [renumberFrom, List.range'_succ, ih]

theorem renumberFrom_length (gs : List Group) :
    ∀ k, (renumberFrom k gs).length = gs.length := by
  induction gs with
  | nil => intro k; rfl
  | cons g gs ih => intro k; simp [renumberFrom, ih]

theorem singletonsFrom_length (ls : List String) :
    ∀ k, (singletonsFrom k ls).length = ls.length := by
  induction ls with
  | nil => intro k; rfl
  | cons l ls ih => intro k; simp [singletonsFrom, ih]

theorem singletonsFrom_map_group (ls : List String) :
    ∀ k, (singletonsFrom k ls).map Group.group = List.range' k ls.length := by
  induction ls with
  | nil => intro k; rfl
  | cons l ls ih => intro k; simp [singletonsFrom, List.range'_succ, ih]

theorem singletonsFrom_getElem (ls : List String) :
    ∀ k i l, ls[i]? = some l →
      (singletonsFrom k ls)[i]? = some (⟨k + i, l, [l]⟩ : Group) := by
  induction ls with
  | nil => intro k i l h; simp at h
  | cons x ls ih =>
    intro k i l h
    cases i with
    | zero => simp at h; simp [singletonsFrom, h]
    | succ i =>
      simp at h
      have := ih (k + 1) i l h
      simpa [singletonsFrom, Nat.add_assoc, Nat.add_comm 1 i] using this

theorem appendToGroup_map_group (gs : List Group) :
    ∀ k lab, (appendToGroup gs k lab).map Group.group = gs.map Group.group := by
  induction gs with
  | nil => intro k lab; rfl
  | cons g gs ih =>
    intro k lab
    cases k with
    | zero => simp [appendToGroup]
    | succ k => simp [appendToGroup, ih]

theorem appendToGroup_length (gs : List Group) (k : Nat) (lab : String) :
    (appendToGroup gs k lab).length = gs.length := by
  have := appendToGroup_map_group gs k lab
  calc (appendToGroup gs k lab).length
      = ((appendToGroup gs k lab).map Group.group).length := by simp
    _ = (gs.map Group.group).length := by rw [this]
    _ = gs.length := by simp

theorem parseGroupsText_idsContiguous (s : String) :
    idsContiguous (parseGroupsText s) := by
  unfold parseGroupsText idsContiguous
  rw [renumberFrom_map_group, renumberFrom_length]

theorem seedPhase_idsContiguous (t : String) (ls : List String) :
    idsContiguous (seedPhase t ls) := by
  unfold seedPhase
  by_cases h : (parseGroupsText t).isEmpty
  · rw [if_pos h]
    unfold idsContiguous
    rw [singletonsFrom_map_group, singletonsFrom_length]
  · rw [if_neg h]
    exact parseGroupsText_idsContiguous t

theorem applyDecision_idsContiguous (gs : List Group) (lab d : String)
    (h : idsContiguous gs) : idsContiguous (applyDecision gs lab d) := by
  unfold applyDecision
  cases hdt : decisionTarget gs.length d with
  | some num =>
    unfold idsContiguous
    rw [appendToGroup_map_group, appendToGroup_length]
    exact h
  | none =>
    unfold idsContiguous at h ⊢
    simp only [List.map_append, List.length_append, List.map_cons, List.map_nil]
    rw [h, List.length_singleton, List.range'_1_concat]
    simp [Nat.add_comm]

theorem mergeDecisions_idsContiguous (ds : List (String × String)) :
    ∀ gs, idsContiguous gs → idsContiguous (mergeDecisions gs ds) := by
  induction ds with
  | nil => intro gs h; exact h
  | cons d ds ih =>
    intro gs h
    exact ih _ (applyDecision_idsContiguous gs d.1 d.2 h)

/-- C2: at both points where the taxonomy is closed for reads — right
after seed parsing (or the singleton fallback) and again after the
sequential fan-in merge of all assignment decisions — the group ids are
exactly the contiguous integers `1..N` in list order, for any seed
response text, any seed labels and any decision results. -/
theorem c2_ids_contiguous (t : String) (ls : List String)
    (ds : List (String × String)) :
    idsContiguous (seedPhase t ls) ∧
      idsContiguous (mergeDecisions (seedPhase t ls) ds) :=
  ⟨seedPhase_idsContiguous t ls,
    mergeDecisions_idsContiguous ds _ (seedPhase_idsContiguous t ls)⟩

/-- C5: when zero groups parse from the seed response, the fallback
taxonomy has exactly one group per seed label, in seed order, each group
named after its label and holding exactly that one label. -/
theorem c5_singleton_fallback (t : String) (ls : List String)
    (h : parseGroupsText t = []) :
    (seedPhase t ls).length = ls.length ∧
      ∀ i l, ls[i]? = some l →
        (seedPhase t ls)[i]? = some (⟨i + 1, l, [l]⟩ : Group) := by
  have hs : seedPhase t ls = singletonsFrom 1 ls := by
    unfold seedPhase
    simp [h]
  refine ⟨by rw [hs]; exact singletonsFrom_length ls 1, ?_⟩
  intro i l hl
  rw [hs]
  have := singletonsFrom_getElem ls 1 i l hl
  simpa [Nat.add_comm] using this

/-- C8: parsing the two-line text sorts by the claimed ids (3 and 1) and
renumbers densely, so the Weather group comes first with id 1 and the Mood
group second with id 2. -/
theorem c8_parse_example :
    parseGroupsText "Group 3 Mood: happy, joyful\nGroup 1 Weather: sunny" =
      [⟨1, "Weather", ["sunny"]⟩, ⟨2, "Mood", ["happy", "joyful"]⟩] := by
  decide

theorem isPrefixOf_group_not_new {l : List Char}
    (h : "group".data.isPrefixOf l = true) :
    "new:".data.isPrefixOf l = false := by
  have hg : "group".data = ['g', 'r', 'o', 'u', 'p'] := rfl
  have hn : "new:".data = ['n', 'e', 'w', ':'] := rfl
  rw [hg] at h
  rw [hn]
  cases l with
  | nil => simp [List.isPrefixOf] at h
  | cons c t =>
    simp only [List.isPrefixOf, Bool.and_eq_true, beq_iff_eq] at h
    simp only [List.isPrefixOf, Bool.and_eq_false_iff]
    left
    have : c = 'g' := h.1.symm
    subst this
    decide

/-- C6: an assignment decision that names an out-of-range group number
leaves every existing group unchanged and appends one new singleton group
holding exactly the label and named after it. -/
theorem c6_out_of_range_becomes_singleton (gs : List Group) (lab d : String)
    (ds : List Char)
    (hg : "group".data.isPrefixOf (lowerData d) = true)
    (hd : firstDigitRun d.data = some ds)
    (hrange : ¬(1 ≤ digitsVal ds ∧ digitsVal ds ≤ gs.length)) :
    applyDecision gs lab d = gs ++ [⟨gs.length + 1, lab, [lab]⟩] := by
  have hne := isPrefixOf_group_not_new hg
  unfold applyDecision decisionTarget newGroupName
  rw [hd, hg, hne]
  simp [hrange]

/-- C6 witness: "Group 99" against a five-group taxonomy appends the
singleton group ⟨6, "z", ["z"]⟩ and touches nothing else. -/
theorem c6_out_of_range_becomes_singleton_witness :
    applyDecision
        [⟨1, "A", ["a"]⟩, ⟨2, "B", ["b"]⟩, ⟨3, "C", ["c"]⟩, ⟨4, "D", ["d"]⟩,
          ⟨5, "E", ["e"]⟩] "z" "Group 99" =
      [⟨1, "A", ["a"]⟩, ⟨2, "B", ["b"]⟩, ⟨3, "C", ["c"]⟩, ⟨4, "D", ["d"]⟩,
        ⟨5, "E", ["e"]⟩, ⟨6, "z", ["z"]⟩] :=
  c6_out_of_range_becomes_singleton
    [⟨1, "A", ["a"]⟩, ⟨2, "B", ["b"]⟩, ⟨3, "C", ["c"]⟩, ⟨4, "D", ["d"]⟩,
      ⟨5, "E", ["e"]⟩] "z" "Group 99" ['9', '9'] (by decide) (by decide)
    (by decide)

theorem decisionTarget_bounds {n : Nat} {d : String} {num : Nat}
    (h : decisionTarget n d = some num) : 1 ≤ num ∧ num ≤ n := by
  unfold decisionTarget at h
  split at h
  · cases hfd : firstDigitRun d.data with
    | none => rw [hfd] at h; simp at h
    | some ds =>
      rw [hfd] at h
      dsimp only at h
      by_cases hc : 1 ≤ digitsVal ds ∧ digitsVal ds ≤ n
      · rw [if_pos hc] at h
        cases h
        exact hc
      · rw [if_neg hc] at h
        simp at h
  · simp at h

theorem count_labelsOf_appendToGroup (gs : List Group) :
    ∀ k lab a, k < gs.length →
      List.count a (labelsOf (appendToGroup gs k lab)) =
        List.count a (labelsOf gs) + List.count a [lab] := by
  induction gs with
  | nil => intro k lab a h; simp at h
  | cons g gs ih =>
    intro k lab a h
    cases k with
    | zero =>
      simp only [appendToGroup, labelsOf, List.map_cons, List.flatten_cons,
        List.count_append]
      omega
    | succ k =>
      simp only [appendToGroup, labelsOf, List.map_cons, List.flatten_cons,
        List.count_append]
      have := ih k lab a (by simpa using h)
      simp only [labelsOf] at this
      omega

theorem count_labelsOf_applyDecision (gs : List Group) (lab d a : String) :
    List.count a (labelsOf (applyDecision gs lab d)) =
      List.count a (labelsOf gs) + List.count a [lab] := by
  unfold applyDecision
  cases hdt : decisionTarget gs.length d with
  | some num =>
    have hb := decisionTarget_bounds hdt
    exact count_labelsOf_appendToGroup gs (num - 1) lab a (by omega)
  | none =>
    simp only [labelsOf, List.map_append, List.flatten_append, List.map_cons,
      List.map_nil, List.flatten_cons, List.flatten_nil, List.count_append]
    simp

/-- C1 (amended): the sequential fan-in merge places each collected
(label, decision) pair exactly once: for every starting taxonomy and every
decision list, the number of occurrences of any label across all groups
after the merge is its count before the merge plus its count among the
merged labels — no occurrence is lost and none is placed twice. -/
theorem c1_merge_counts (ds : List (String × String)) :
    ∀ (gs : List Group) (a : String),
      List.count a (labelsOf (mergeDecisions gs ds)) =
        List.count a (labelsOf gs) + List.count a (ds.map Prod.fst) := by
  induction ds with
  | nil => intro gs a; simp [mergeDecisions]
  | cons d ds ih =>
    intro gs a
    have hstep : mergeDecisions gs (d :: ds) =
        mergeDecisions (applyDecision gs d.1 d.2) ds := rfl
    rw [hstep, ih, count_labelsOf_applyDecision]
    simp only [List.map_cons, List.count_cons, List.count_cons, List.count_nil]
    omega

/-- C1 counterexample: with the label sequence ["x"] and the deterministic
mocked seed response "Group 1 A: y", the finished pipeline holds the
label "x" in zero groups — the claim "each label of the sequence appears
in exactly one group's label list" fails for the seed phase. -/
theorem c1_counterexample :
    (pipelineGroups "Group 1 A: y" (fun _ => "") ["x"]).countP
        (fun g => g.labels.contains "x") = 0 := by
  decide

/-- C3 (amended): a "group N" decision appends its label to group N
exactly when N lies in `[1, N']` where `N'` is the group count at the
moment the decision is applied — that is, after all earlier decisions of
the same batch, including groups they created — not the pre-batch count. -/
theorem c3_range_checked_against_live_count (gs : List Group)
    (pre rest : List (String × String)) (lab d : String) (num : Nat)
    (h : decisionTarget (mergeDecisions gs pre).length d = some num) :
    mergeDecisions gs (pre ++ (lab, d) :: rest) =
      mergeDecisions (appendToGroup (mergeDecisions gs pre) (num - 1) lab)
        rest := by
  show List.foldl _ gs (pre ++ (lab, d) :: rest) = _
  rw [List.foldl_append, List.foldl_cons]
  have happ : applyDecision (mergeDecisions gs pre) lab d =
      appendToGroup (mergeDecisions gs pre) (num - 1) lab := by
    unfold applyDecision
    rw [h]
  show List.foldl _ (applyDecision (List.foldl _ gs pre) lab d) rest = _
  rw [show List.foldl (fun acc ld => applyDecision acc ld.1 ld.2) gs pre =
      mergeDecisions gs pre from rfl, happ]
  rfl

/-- C3 amended-claim witness: the decision "Group 2" for label "c",
arriving after an unparseable decision for "b" created group 2 in the same
batch, is accepted against the live count (2 groups) and appended there. -/
theorem c3_range_checked_against_live_count_witness :
    mergeDecisions [⟨1, "A", ["a0"]⟩] ([("b", "junk")] ++ ("c", "Group 2") :: []) =
      mergeDecisions
        (appendToGroup (mergeDecisions [⟨1, "A", ["a0"]⟩] [("b", "junk")]) 1 "c")
        [] :=
  c3_range_checked_against_live_count [⟨1, "A", ["a0"]⟩] [("b", "junk")] []
    "c" "Group 2" 2 (by decide)

/-- C3 counterexample: the claim's pre-batch-count semantics
(`mergeDecisionsFrozen`) disagrees with the code on a batch whose first
decision creates a new group: the code appends "c" to the batch-created
group 2, while the claimed semantics would spin off a third singleton
group. -/
theorem c3_counterexample :
    mergeDecisions [⟨1, "A", ["a0"]⟩] [("b", "junk"), ("c", "Group 2")] =
        [⟨1, "A", ["a0"]⟩, ⟨2, "b", ["b", "c"]⟩] ∧
      mergeDecisions [⟨1, "A", ["a0"]⟩] [("b", "junk"), ("c", "Group 2")] ≠
        mergeDecisionsFrozen [⟨1, "A", ["a0"]⟩]
          [("b", "junk"), ("c", "Group 2")] := by
  exact ⟨by decide, by decide⟩

theorem firstMatchIdx_lt {p : Row → Bool} (pool : List Row) :
    ∀ i, firstMatchIdx p pool = some i → i < pool.length := by
  induction pool with
  | nil => intro i h; simp [firstMatchIdx] at h
  | cons r rs ih =>
    intro i h
    unfold firstMatchIdx at h
    by_cases hp : p r
    · rw [if_pos hp] at h
      cases h
      simp
    · rw [if_neg hp] at h
      cases hm : firstMatchIdx p rs with
      | none => rw [hm] at h; simp at h
      | some j =>
        rw [hm] at h
        cases h
        have := ih j hm
        simp
        omega

/-- C7: each label slot consumes at most one row from the working pool —
when a first-pass match exists at index i the popped pool is exactly the
pool without row i (every other row, including later rows with the same
category, remains available), and when neither pass matches, the pool is
untouched and the slot still emits exactly one synthesized row whose
category cell is the label and whose other cells are all empty. -/
theorem c7_slot_row_consumption (catIdx ncols gnum : Nat)
    (gname lab : String) (pool : List Row) :
    (∀ i, firstMatchIdx (matchesExact catIdx lab) pool = some i →
        pickAndPopRow catIdx lab pool = (pool[i]?, pool.eraseIdx i) ∧
          (pool.eraseIdx i).length + 1 = pool.length) ∧
      ((pickAndPopRow catIdx lab pool).1 = none →
        (pickAndPopRow catIdx lab pool).2 = pool ∧
          matLabels catIdx ncols gnum gname [lab] pool =
            (pool, [⟨synthRow ncols catIdx lab, gnum, gname⟩])) := by
  constructor
  · intro i h
    constructor
    · unfold pickAndPopRow
      rw [h]
    · have := firstMatchIdx_lt pool i h
      rw [List.length_eraseIdx_of_lt this]
      omega
  · intro hnone
    have heq : pickAndPopRow catIdx lab pool = (none, pool) := by
      unfold pickAndPopRow at hnone ⊢
      cases he : firstMatchIdx (matchesExact catIdx lab) pool with
      | some i =>
        rw [he] at hnone
        have hil := firstMatchIdx_lt pool i he
        simp [List.getElem?_eq_getElem hil] at hnone
      | none =>
        rw [he] at hnone
        dsimp only at hnone
        dsimp only
        cases hl : firstMatchIdx (matchesLenient catIdx lab) pool with
        | some i =>
          rw [hl] at hnone
          have hil := firstMatchIdx_lt pool i hl
          simp [List.getElem?_eq_getElem hil] at hnone
        | none =>
          rfl
    refine ⟨by rw [heq], ?_⟩
    unfold matLabels matLabels
    rw [heq]
    rfl

/-- C7 witness: a pool with two rows whose category is "cat": the slot for
"cat" consumes exactly the first and leaves the second; the slot for "dog"
consumes nothing and synthesizes ⟨[some "dog", none], 1, "G"⟩. -/
theorem c7_slot_row_consumption_witness :
    (pickAndPopRow 0 "cat" [[some "cat", some "r1"], [some "cat", some "r2"]] =
        ([[some "cat", some "r1"], [some "cat", some "r2"]][0]?,
          List.eraseIdx [[some "cat", some "r1"], [some "cat", some "r2"]] 0) ∧
        (List.eraseIdx [[some "cat", some "r1"], [some "cat", some "r2"]]
              0).length + 1 = 2) ∧
      (pickAndPopRow 0 "dog" [[some "cat", some "r1"], [some "cat", some "r2"]]).2 =
          [[some "cat", some "r1"], [some "cat", some "r2"]] ∧
        matLabels 0 2 1 "G" ["dog"] [[some "cat", some "r1"], [some "cat", some "r2"]] =
          ([[some "cat", some "r1"], [some "cat", some "r2"]],
            [⟨synthRow 2 0 "dog", 1, "G"⟩]) :=
  ⟨(c7_slot_row_consumption 0 2 1 "G" "cat"
        [[some "cat", some "r1"], [some "cat", some "r2"]]).1 0 (by decide),
    (c7_slot_row_consumption 0 2 1 "G" "dog"
        [[some "cat", some "r1"], [some "cat", some "r2"]]).2 (by decide)⟩

theorem matLabels_stamps (catIdx ncols gnum : Nat) (gname : String)
    (labels : List String) :
    ∀ pool, ((matLabels catIdx ncols gnum gname labels pool).2).map
        (fun r => (r.group, r.gname)) = labels.map (fun _ => (gnum, gname)) := by
  induction labels with
  | nil => intro pool; rfl
  | cons lab rest ih =>
    intro pool
    simp only [matLabels, List.map_cons]
    rw [ih]

/-- C10: the materializer emits exactly one output row per label slot of
the final taxonomy, in group order then label order, each stamped with its
group's id and name; in particular the output row count is the total
number of label slots, whatever the table pool contains. -/
theorem c10_one_row_per_slot (catIdx ncols : Nat) (gs : List Group) :
    ∀ pool : List Row,
      ((matGroups catIdx ncols gs pool).map fun r => (r.group, r.gname)) =
          (gs.map fun g => g.labels.map fun _ => (g.group, g.name)).flatten ∧
        (matGroups catIdx ncols gs pool).length =
          (gs.map fun g => g.labels.length).sum := by
  have hmap : ∀ glist : List Group, ∀ pool : List Row,
      ((matGroups catIdx ncols glist pool).map fun r => (r.group, r.gname)) =
        (glist.map fun g => g.labels.map fun _ => (g.group, g.name)).flatten := by
    intro glist
    induction glist with
    | nil => intro pool; rfl
    | cons g rest ih =>
      intro pool
      simp only [matGroups, List.map_cons, List.flatten_cons, List.map_append]
      rw [matLabels_stamps, ih]
  intro pool
  refine ⟨hmap gs pool, ?_⟩
  have hlen := congrArg List.length (hmap gs pool)
  rw [List.length_map, List.length_flatten, List.map_map] at hlen
  rw [hlen]
  refine congrArg List.sum (List.map_congr_left fun g hg => ?_)
  simp

theorem getLast?_append_right {l l' : List Char} (h : l' ≠ []) :
    (l ++ l').getLast? = l'.getLast? := by
  rw [List.getLast?_append]
  cases hl : l'.getLast? with
  | none => exact absurd (List.getLast?_eq_none_iff.mp hl) h
  | some e => rfl

theorem isPrefixOf_append_self : ∀ l r : List Char, l.isPrefixOf (l ++ r) = true := by
  intro l r
  induction l with
  | nil => simp [List.isPrefixOf]
  | cons c l ih => simp [List.isPrefixOf, ih]

theorem run_split {p : Char → Bool} {y : Char} (ys : List Char) :
    ∀ xs : List Char, (∀ c ∈ xs, p c = true) → p y = false →
      (xs ++ y :: ys).takeWhile p = xs ∧ (xs ++ y :: ys).dropWhile p = y :: ys := by
  intro xs hall hy
  constructor
  · rw [List.takeWhile_append_of_pos (by intro a ha; exact hall a ha),
      List.takeWhile_cons_of_neg (by simp [hy])]
    simp
  · rw [List.dropWhile_append_of_pos (by intro a ha; exact hall a ha),
      List.dropWhile_cons_of_neg (by simp [hy])]

theorem scanColon_append (ys : List Char) (hy : ys ≠ []) :
    ∀ xs : List Char, (∀ c ∈ xs, c ≠ ':') →
      scanColon (xs ++ ':' :: ys) = some (xs, ys) := by
  intro xs
  induction xs with
  | nil =>
    intro _
    simp [scanColon, hy]
  | cons c xs ih =>
    intro hx
    have hc : c ≠ ':' := hx c (by simp)
    show scanColon (c :: (xs ++ ':' :: ys)) = some (c :: xs, ys)
    unfold scanColon
    rw [if_neg (by simp [hc]), ih (fun a ha => hx a (by simp [ha]))]

theorem nameSplit_append (n0 : Char) (nrest ys : List Char)
    (hx : ∀ c ∈ n0 :: nrest, c ≠ ':') (hy : ys ≠ []) :
    nameSplit ((n0 :: nrest) ++ ':' :: ys) = some (n0 :: nrest, ys) := by
  show nameSplit (n0 :: (nrest ++ ':' :: ys)) = some (n0 :: nrest, ys)
  simp only [nameSplit]
  rw [scanColon_append ys hy nrest (fun a ha => hx a (by simp [ha]))]

theorem splitComma_no_comma : ∀ xs : List Char, (∀ c ∈ xs, c ≠ ',') →
    splitComma xs = [xs] := by
  intro xs
  induction xs with
  | nil => intro _; rfl
  | cons c xs ih =>
    intro h
    unfold splitComma
    rw [if_neg (h c (by simp)), ih (fun a ha => h a (by simp [ha]))]

theorem splitComma_append (ys : List Char) :
    ∀ xs : List Char, (∀ c ∈ xs, c ≠ ',') →
      splitComma (xs ++ ',' :: ys) = xs :: splitComma ys := by
  intro xs
  induction xs with
  | nil =>
    intro _
    show splitComma (',' :: ys) = [] :: splitComma ys
    simp [splitComma]
  | cons c xs ih =>
    intro h
    show splitComma (c :: (xs ++ ',' :: ys)) = (c :: xs) :: splitComma ys
    simp only [splitComma]
    rw [if_neg (h c (by simp)), ih (fun a ha => h a (by simp [ha]))]

theorem mk_data_eq (s : String) : String.mk s.data = s := rfl

theorem data_ne_nil {s : String} (h : s ≠ "") : s.data ≠ [] := by
  intro hc
  exact h (String.ext (hc.trans rfl))

/-- The rendered example list of a non-empty list of good labels: it is a
non-empty character list starting and ending with non-whitespace and
containing no line-break characters. -/
theorem joinSep_labels_facts :
    ∀ ls : List String, ls ≠ [] → (∀ l ∈ ls, GoodLabel l) →
      ∃ c rest, joinSep ", ".data (ls.map String.data) = c :: rest ∧
        pyIsSpace c = false ∧
        (∀ e, (c :: rest).getLast? = some e → pyIsSpace e = false) ∧
        ∀ x ∈ c :: rest, isLineBreak x = false := by
  intro ls
  induction ls with
  | nil => intro h; exact absurd rfl h
  | cons l ls ih =>
    intro _ hgood
    obtain ⟨hne, htrim, hchars⟩ := hgood l (by simp)
    obtain ⟨c, lr, hld⟩ : ∃ c lr, l.data = c :: lr := by
      cases hd : l.data with
      | nil => exact absurd hd (data_ne_nil hne)
      | cons c lr => exact ⟨c, lr, rfl⟩
    have hc : pyIsSpace c = false := trimInv_head htrim c lr hld
    cases ls with
    | nil =>
      refine ⟨c, lr, by simp [joinSep, hld], hc, ?_, ?_⟩
      · rw [← hld]
        exact trimInv_getLast htrim
      · intro x hx
        exact (hchars x (hld ▸ hx)).2
    | cons l2 ls2 =>
      obtain ⟨c2, r2, hJ, hc2, hlast2, hbrk2⟩ :=
        ih (by simp) (fun a ha => hgood a (by simp [ha]))
      refine ⟨c, lr ++ ", ".data ++ joinSep ", ".data ((l2 :: ls2).map String.data),
        ?_, hc, ?_, ?_⟩
      · show l.data ++ ", ".data ++ joinSep ", ".data ((l2 :: ls2).map String.data) =
          _
        rw [hld]
        simp
      · intro e he
        rw [show (c :: (lr ++ ", ".data ++
              joinSep ", ".data ((l2 :: ls2).map String.data))) =
            (c :: lr ++ ", ".data) ++
              joinSep ", ".data ((l2 :: ls2).map String.data) by simp,
          getLast?_append_right (by rw [hJ]; simp), hJ] at he
        exact hlast2 e he
      · intro x hx
        rw [show (c :: (lr ++ ", ".data ++
              joinSep ", ".data ((l2 :: ls2).map String.data))) =
            (c :: lr) ++ ", ".data ++
              joinSep ", ".data ((l2 :: ls2).map String.data) by simp] at hx
        simp only [List.mem_append] at hx
        cases hx with
        | inl hx =>
          cases hx with
          | inl hx => exact (hchars x (hld ▸ hx)).2
          | inr hx =>
            have : x = ',' ∨ x = ' ' := by simpa using hx
            cases this with
            | inl h => subst h; decide
            | inr h => subst h; decide
        | inr hx =>
          rw [hJ] at hx
          exact hbrk2 x hx

theorem labelsRT_inner :
    ∀ ls : List String, ls ≠ [] → (∀ l ∈ ls, GoodLabel l) →
      ((splitComma (' ' :: joinSep ", ".data (ls.map String.data))).map
          (fun x => String.mk (pyStripL x))).filter (fun s => s ≠ "") = ls := by
  intro ls
  induction ls with
  | nil => intro h; exact absurd rfl h
  | cons l ls ih =>
    intro _ hgood
    obtain ⟨hne, htrim, hchars⟩ := hgood l (by simp)
    cases ls with
    | nil =>
      show ((splitComma (' ' :: l.data)).map
          (fun x => String.mk (pyStripL x))).filter (fun s => s ≠ "") = [l]
      rw [splitComma_no_comma (' ' :: l.data) (by
        intro a ha
        cases (List.mem_cons.mp ha) with
        | inl h => subst h; decide
        | inr h => exact (hchars a h).1)]
      simp only [List.map_cons, List.map_nil]
      rw [pyStripL_cons_of_space (by decide), htrim, mk_data_eq]
      simp [hne]
    | cons l2 ls2 =>
      have hsep : ", ".data = [',', ' '] := rfl
      have assoc : ' ' :: joinSep ", ".data ((l :: l2 :: ls2).map String.data) =
          (' ' :: l.data) ++
            ',' :: (' ' :: joinSep ", ".data ((l2 :: ls2).map String.data)) := by
        simp only [List.map_cons, joinSep, hsep]
        simp
      rw [assoc, splitComma_append _ _ (by
        intro a ha
        cases (List.mem_cons.mp ha) with
        | inl h => subst h; decide
        | inr h => exact (hchars a h).1)]
      simp only [List.map_cons]
      rw [pyStripL_cons_of_space (by decide), htrim, mk_data_eq]
      simp only [List.filter_cons]
      rw [if_pos (by simp [hne])]
      have htail := ih (by simp) (fun a ha => hgood a (by simp [ha]))
      rw [hsep, List.map_cons] at htail
      rw [htail]

theorem labelsRT :
    ∀ ls : List String, ls ≠ [] → (∀ l ∈ ls, GoodLabel l) →
      ((splitComma (joinSep ", ".data (ls.map String.data))).map
          (fun x => String.mk (pyStripL x))).filter (fun s => s ≠ "") = ls := by
  intro ls
  cases ls with
  | nil => intro h; exact absurd rfl h
  | cons l ls =>
    intro _ hgood
    obtain ⟨hne, htrim, hchars⟩ := hgood l (by simp)
    cases ls with
    | nil =>
      show ((splitComma l.data).map
          (fun x => String.mk (pyStripL x))).filter (fun s => s ≠ "") = [l]
      rw [splitComma_no_comma l.data (fun a ha => (hchars a ha).1)]
      simp only [List.map_cons, List.map_nil]
      rw [htrim, mk_data_eq]
      simp [hne]
    | cons l2 ls2 =>
      have hsep : ", ".data = [',', ' '] := rfl
      have assoc : joinSep ", ".data ((l :: l2 :: ls2).map String.data) =
          l.data ++
            ',' :: (' ' :: joinSep ", ".data ((l2 :: ls2).map String.data)) := by
        simp only [List.map_cons, joinSep, hsep]
        simp
      rw [assoc, splitComma_append _ _ (fun a ha => (hchars a ha).1)]
      simp only [List.map_cons]
      rw [htrim, mk_data_eq]
      simp only [List.filter_cons]
      rw [if_pos (by simp [hne])]
      have htail := labelsRT_inner (l2 :: ls2) (by simp)
        (fun a ha => hgood a (by simp [ha]))
      rw [hsep, List.map_cons] at htail
      rw [htail]

theorem splitLinesAux_noBreak :
    ∀ l : List Char, (∀ c ∈ l, isLineBreak c = false) →
      ∀ rest acc, splitLinesAux (l ++ rest) acc false =
        splitLinesAux rest (l.reverse ++ acc) false := by
  intro l
  induction l with
  | nil => intro _ rest acc; simp
  | cons c l ih =>
    intro h rest acc
    have hcb : isLineBreak c = false := h c (by simp)
    have hcr : c ≠ '\r' := by
      intro hc
      rw [hc] at hcb
      exact absurd hcb (by decide)
    have hcn : c ≠ '\n' := by
      intro hc
      rw [hc] at hcb
      exact absurd hcb (by decide)
    show splitLinesAux (c :: (l ++ rest)) acc false = _
    simp only [splitLinesAux]
    rw [if_neg (by simp), if_neg hcr, if_neg (by simp [hcb]),
      ih (fun a ha => h a (by simp [ha])) rest (c :: acc)]
    simp

theorem splitLinesAux_newline (rest acc : List Char) :
    splitLinesAux ('\n' :: rest) acc false =
      acc.reverse :: splitLinesAux rest [] false := by
  simp only [splitLinesAux]
  rw [if_neg (by simp), if_neg (by decide), if_pos (by decide)]

theorem splitLines_joinSep :
    ∀ lines : List (List Char),
      (∀ l ∈ lines, l ≠ [] ∧ ∀ c ∈ l, isLineBreak c = false) →
      splitLines (joinSep ['\n'] lines) = lines := by
  intro lines
  induction lines with
  | nil => intro _; rfl
  | cons l lines ih =>
    intro h
    obtain ⟨hne, hbrk⟩ := h l (by simp)
    cases lines with
    | nil =>
      show splitLinesAux l [] false = [l]
      calc splitLinesAux l [] false
          = splitLinesAux (l ++ []) [] false := by simp
        _ = splitLinesAux [] (l.reverse ++ []) false :=
            splitLinesAux_noBreak l hbrk [] []
        _ = [l] := by
            simp only [List.append_nil]
            simp only [splitLinesAux]
            rw [if_neg (by simp [hne])]
            simp
    | cons l2 lines2 =>
      show splitLines (joinSep ['\n'] (l :: l2 :: lines2)) = l :: l2 :: lines2
      unfold splitLines
      rw [show joinSep ['\n'] (l :: l2 :: lines2) =
          l ++ ('\n' :: joinSep ['\n'] (l2 :: lines2)) by simp [joinSep],
        splitLinesAux_noBreak l hbrk _ [], splitLinesAux_newline]
      simp only [List.append_nil, List.reverse_reverse]
      rw [show splitLinesAux (joinSep ['\n'] (l2 :: lines2)) [] false =
          splitLines (joinSep ['\n'] (l2 :: lines2)) from rfl]
      rw [ih (fun a ha => h a (by simp [ha]))]

/-- A well-formed group's summary line parses back to exactly that group
(with its claimed id, before renumbering). -/
theorem lineMatch_summaryLine (g : Group) (hg : GoodGroup g) :
    lineMatch (summaryLine 6 g) = some g := by
  obtain ⟨⟨hnne, hntrim, hnchars⟩, hlen1, hlen6, hlabs⟩ := hg
  have hlne : g.labels ≠ [] := by
    intro hc
    rw [hc] at hlen1
    simp at hlen1
  obtain ⟨e0, er, hE, he0, hElast, hEbrk⟩ :=
    joinSep_labels_facts g.labels hlne hlabs
  obtain ⟨d, ds', hnr⟩ : ∃ d ds', natRepr g.group = d :: ds' := by
    cases hd : natRepr g.group with
    | nil => exact absurd hd (natRepr_ne_nil _)
    | cons d ds' => exact ⟨d, ds', rfl⟩
  obtain ⟨n0, nr, hnd⟩ : ∃ n0 nr, g.name.data = n0 :: nr := by
    cases hd : g.name.data with
    | nil => exact absurd hd (data_ne_nil hnne)
    | cons a b => exact ⟨a, b, rfl⟩
  have hn0 : pyIsSpace n0 = false := trimInv_head hntrim n0 nr hnd
  have hddig : ∀ c ∈ natRepr g.group, isDigitC c = true := natRepr_digits _
  have hlineRaw : summaryLine 6 g =
      "Group ".data ++ natRepr g.group ++ [' '] ++ g.name.data ++ [':', ' '] ++
        joinSep ", ".data (g.labels.map String.data) := by
    simp only [summaryLine, List.take_of_length_le hlen6]
    rw [if_neg (by simp [List.isEmpty_iff, hlne])]
  have hcons : summaryLine 6 g = 'G' :: 'r' :: 'o' :: 'u' :: 'p' :: ' ' ::
      (natRepr g.group ++ (' ' :: (g.name.data ++ (':' :: ' ' ::
        joinSep ", ".data (g.labels.map String.data))))) := by
    rw [hlineRaw, show ("Group ".data : List Char) = ['G', 'r', 'o', 'u', 'p', ' '] from rfl]
    simp
  -- the tail after "Group" and its maximal whitespace run
  have hXcons : natRepr g.group ++ (' ' :: (g.name.data ++ (':' :: ' ' ::
      joinSep ", ".data (g.labels.map String.data)))) =
      d :: (ds' ++ (' ' :: (g.name.data ++ (':' :: ' ' ::
        joinSep ", ".data (g.labels.map String.data))))) := by
    rw [hnr]
    rfl
  have hdns : pyIsSpace d = false := digit_not_space (hddig d (by rw [hnr]; simp))
  have hrun := run_split (g.name.data ++ (':' :: ' ' ::
      joinSep ", ".data (g.labels.map String.data))) (natRepr g.group) hddig
      (show isDigitC ' ' = false by decide)
  have hr2cons : g.name.data ++ (':' :: ' ' ::
      joinSep ", ".data (g.labels.map String.data)) =
      n0 :: (nr ++ (':' :: ' ' ::
        joinSep ", ".data (g.labels.map String.data))) := by
    rw [hnd]
    rfl
  have hsplit : nameSplit (g.name.data ++ (':' :: ' ' ::
      joinSep ", ".data (g.labels.map String.data))) =
      some (g.name.data, ' ' :: joinSep ", ".data (g.labels.map String.data)) := by
    rw [hnd]
    exact nameSplit_append n0 nr _
      (fun a ha => (hnchars a (by rw [hnd]; exact ha)).1) (by simp)
  have hstripE : pyStripL (' ' :: joinSep ", ".data (g.labels.map String.data)) =
      joinSep ", ".data (g.labels.map String.data) := by
    rw [pyStripL_cons_of_space (by decide), hE]
    exact pyStripL_cons_eq he0 hElast
  rw [hcons]
  show lineMatch ("Group".data ++ (' ' :: (natRepr g.group ++ (' ' ::
      (g.name.data ++ (':' :: ' ' ::
        joinSep ", ".data (g.labels.map String.data))))))) = some g
  unfold lineMatch
  rw [isPrefixOf_append_self]
  rw [if_pos rfl]
  show (let r1 := ' ' :: (natRepr g.group ++ (' ' :: (g.name.data ++ (':' :: ' ' ::
      joinSep ", ".data (g.labels.map String.data)))));
    let r2 := r1.dropWhile pyIsSpace;
    if (r1.takeWhile pyIsSpace).isEmpty = true then none else
    let ds := r2.takeWhile isDigitC;
    let r3 := r2.dropWhile isDigitC;
    if ds.isEmpty = true then none else
    match tryPs r3 (r3.takeWhile pyIsSpace).length with
    | none => none
    | some (nameRaw, u) =>
      some
        { group := digitsVal ds
          name := String.mk (pyStripL nameRaw)
          labels :=
            ((splitComma (pyStripL u)).map fun l => String.mk (pyStripL l)).filter
              fun s => s ≠ "" }) = some g
  simp only [List.takeWhile_cons_of_pos (show pyIsSpace ' ' = true by decide),
    List.dropWhile_cons_of_pos (show pyIsSpace ' ' = true by decide)]
  rw [hXcons, List.takeWhile_cons_of_neg (by simp [hdns]),
    List.dropWhile_cons_of_neg (by simp [hdns]), ← hXcons]
  rw [if_neg (by simp)]
  rw [hrun.1, hrun.2]
  rw [if_neg (by simp [hnr])]
  rw [List.takeWhile_cons_of_pos (show pyIsSpace ' ' = true by decide)]
  rw [hr2cons, List.takeWhile_cons_of_neg (by simp [hn0]), ← hr2cons]
  show (match tryPs (' ' :: (g.name.data ++ (':' :: ' ' ::
      joinSep ", ".data (g.labels.map String.data)))) [' '].length with
    | none => none
    | some (nameRaw, u) =>
      some
        { group := digitsVal (natRepr g.group)
          name := String.mk (pyStripL nameRaw)
          labels :=
            ((splitComma (pyStripL u)).map fun l => String.mk (pyStripL l)).filter
              fun s => s ≠ "" }) = some g
  simp only [List.length_singleton, tryPs, List.drop_succ_cons, List.drop_zero]
  rw [hsplit]
  show some
      { group := digitsVal (natRepr g.group)
        name := String.mk (pyStripL g.name.data)
        labels :=
          ((splitComma (pyStripL (' ' ::
              joinSep ", ".data (g.labels.map String.data)))).map
            fun l => String.mk (pyStripL l)).filter fun s => s ≠ "" } = some g
  rw [digitsVal_natRepr, hntrim, mk_data_eq, hstripE,
    labelsRT g.labels hlne hlabs]

theorem insertSorted_atEnd (g : Group) :
    ∀ acc : List Group, (∀ a ∈ acc, a.group ≤ g.group) →
      insertSorted g acc = acc ++ [g] := by
  intro acc
  induction acc with
  | nil => intro _; rfl
  | cons h t ih =>
    intro hle
    unfold insertSorted
    rw [if_pos (hle h (by simp)), ih (fun a ha => hle a (by simp [ha]))]
    rfl

theorem foldl_insertSorted (rest : List Group) :
    ∀ acc, List.Pairwise (fun a b => a.group ≤ b.group) (acc ++ rest) →
      rest.foldl (fun acc g => insertSorted g acc) acc = acc ++ rest := by
  induction rest with
  | nil => intro acc _; simp
  | cons r rest ih =>
    intro acc h
    have hins : insertSorted r acc = acc ++ [r] :=
      insertSorted_atEnd r acc
        (fun a ha => (List.pairwise_append.mp h).2.2 a ha r (by simp))
    show List.foldl _ (insertSorted r acc) rest = acc ++ r :: rest
    rw [hins, ih (acc ++ [r]) (by simpa using h)]
    simp

theorem sortGroups_of_pairwise (gs : List Group)
    (h : List.Pairwise (fun a b => a.group ≤ b.group) gs) :
    sortGroups gs = gs := by
  have := foldl_insertSorted gs [] (by simpa using h)
  simpa [sortGroups] using this

theorem pairwise_le_of_contiguous (gs : List Group) (h : idsContiguous gs) :
    List.Pairwise (fun a b => a.group ≤ b.group) gs := by
  have hp : List.Pairwise (· ≤ ·) (gs.map Group.group) := by
    rw [h]
    exact List.pairwise_le_range' 1 gs.length
  exact List.pairwise_map.mp hp

theorem renumberFrom_id :
    ∀ (gs : List Group) (k : Nat), gs.map Group.group = List.range' k gs.length →
      renumberFrom k gs = gs := by
  intro gs
  induction gs with
  | nil => intro k _; rfl
  | cons g gs ih =>
    intro k h
    rw [List.map_cons, List.length_cons, List.range'_succ] at h
    have h1 : g.group = k := (List.cons.injEq .. ▸ h).1
    have h2 : gs.map Group.group = List.range' (k + 1) gs.length :=
      (List.cons.injEq .. ▸ h).2
    show { g with group := k } :: renumberFrom (k + 1) gs = g :: gs
    rw [ih (k + 1) h2, ← h1]

theorem filterMap_id_of_some {α : Type} (f : α → Option α) :
    ∀ l : List α, (∀ x ∈ l, f x = some x) → l.filterMap f = l := by
  intro l
  induction l with
  | nil => intro _; rfl
  | cons x l ih =>
    intro h
    rw [List.filterMap_cons, h x (by simp), ih (fun a ha => h a (by simp [ha]))]

/-- A well-formed group's summary line is strip-invariant, non-empty and
free of line-break characters. -/
theorem summaryLine_facts (g : Group) (hg : GoodGroup g) :
    pyStripL (summaryLine 6 g) = summaryLine 6 g ∧ summaryLine 6 g ≠ [] ∧
      ∀ c ∈ summaryLine 6 g, isLineBreak c = false := by
  obtain ⟨⟨hnne, hntrim, hnchars⟩, hlen1, hlen6, hlabs⟩ := hg
  have hlne : g.labels ≠ [] := by
    intro hc
    rw [hc] at hlen1
    simp at hlen1
  obtain ⟨e0, er, hE, he0, hElast, hEbrk⟩ :=
    joinSep_labels_facts g.labels hlne hlabs
  have hlineRaw : summaryLine 6 g =
      "Group ".data ++ natRepr g.group ++ [' '] ++ g.name.data ++ [':', ' '] ++
        joinSep ", ".data (g.labels.map String.data) := by
    simp only [summaryLine, List.take_of_length_le hlen6]
    rw [if_neg (by simp [List.isEmpty_iff, hlne])]
  have hcons : summaryLine 6 g = 'G' :: 'r' :: 'o' :: 'u' :: 'p' :: ' ' ::
      (natRepr g.group ++ (' ' :: (g.name.data ++ (':' :: ' ' ::
        joinSep ", ".data (g.labels.map String.data))))) := by
    rw [hlineRaw, show ("Group ".data : List Char) = ['G', 'r', 'o', 'u', 'p', ' '] from rfl]
    simp
  have hlast : ∀ e, (summaryLine 6 g).getLast? = some e → pyIsSpace e = false := by
    intro e he
    rw [hlineRaw, getLast?_append_right (by rw [hE]; simp), hE] at he
    exact hElast e he
  refine ⟨?_, ?_, ?_⟩
  · rw [hcons]
    exact pyStripL_cons_eq (by decide) (by rw [← hcons]; exact hlast)
  · rw [hcons]
    simp
  · intro c hc
    rw [hlineRaw] at hc
    simp only [List.mem_append] at hc
    rcases hc with ((((h1 | h2) | h3) | h4) | h5) | h6
    · have : c ∈ (['G', 'r', 'o', 'u', 'p', ' '] : List Char) := h1
      simp only [List.mem_cons, List.not_mem_nil, or_false] at this
      rcases this with rfl | rfl | rfl | rfl | rfl | rfl <;> decide
    · exact digit_not_break (natRepr_digits g.group c h2)
    · have : c = ' ' := by simpa using h3
      subst this
      decide
    · exact (hnchars c h4).2
    · have : c = ':' ∨ c = ' ' := by simpa using h5
      rcases this with rfl | rfl <;> decide
    · rw [hE] at h6
      exact hEbrk c h6

/-- C4 (amended): re-parsing the materializer's own group-summary
rendering recovers exactly the original taxonomy — provided the taxonomy's
ids are contiguous (as the pipeline guarantees) and each group is
well-formed for the format: 1 to 6 labels (the summary renders at most 6
examples and renders empty groups as "(none yet)"), non-empty
strip-invariant names and labels, no ':' in names, no ',' in labels, and
no line breaks in either. -/
theorem c4_summary_parse_roundtrip (gs : List Group) (h1 : idsContiguous gs)
    (h2 : ∀ g ∈ gs, GoodGroup g) :
    parseGroupsText (groupsSummary gs 6) = gs := by
  unfold parseGroupsText groupsSummary
  rw [show (String.mk (joinSep ['\n'] (gs.map (summaryLine 6)))).data =
      joinSep ['\n'] (gs.map (summaryLine 6)) from rfl]
  rw [splitLines_joinSep (gs.map (summaryLine 6)) (by
    intro l hl
    obtain ⟨g, hgmem, rfl⟩ := List.mem_map.mp hl
    exact ⟨(summaryLine_facts g (h2 g hgmem)).2.1,
      (summaryLine_facts g (h2 g hgmem)).2.2⟩)]
  rw [List.filterMap_map]
  rw [filterMap_id_of_some _ gs (by
    intro g hgmem
    have hf := summaryLine_facts g (h2 g hgmem)
    show (if (pyStripL (summaryLine 6 g)).isEmpty = true then none
        else lineMatch (pyStripL (summaryLine 6 g))) = some g
    rw [hf.1, if_neg (by simp [List.isEmpty_iff, hf.2.1])]
    exact lineMatch_summaryLine g (h2 g hgmem))]
  rw [sortGroups_of_pairwise gs (pairwise_le_of_contiguous gs h1),
    renumberFrom_id gs 1 h1]

/-- C4 witness: a two-group taxonomy with well-formed names and labels
(including an embedded space in "light blue") survives the
summary-then-parse round trip unchanged. -/
theorem c4_summary_parse_roundtrip_witness :
    parseGroupsText (groupsSummary
        [⟨1, "Colors", ["red", "light blue"]⟩, ⟨2, "Moods", ["happy"]⟩] 6) =
      [⟨1, "Colors", ["red", "light blue"]⟩, ⟨2, "Moods", ["happy"]⟩] :=
  c4_summary_parse_roundtrip
    [⟨1, "Colors", ["red", "light blue"]⟩, ⟨2, "Moods", ["happy"]⟩]
    (by decide) (by decide)

/-- C4 counterexample: the summary renders at most 6 example labels per
group, so a taxonomy whose group holds 7 labels does not round-trip: the
re-parsed group has lost the label "l7", contradicting the claim for
arbitrary taxonomies. -/
theorem c4_counterexample :
    (parseGroupsText (groupsSummary
          [⟨1, "A", ["l1", "l2", "l3", "l4", "l5", "l6", "l7"]⟩] 6)).map
        Group.labels = [["l1", "l2", "l3", "l4", "l5", "l6"]] ∧
      parseGroupsText (groupsSummary
          [⟨1, "A", ["l1", "l2", "l3", "l4", "l5", "l6", "l7"]⟩] 6) ≠
        [⟨1, "A", ["l1", "l2", "l3", "l4", "l5", "l6", "l7"]⟩] :=
  ⟨by decide, by decide⟩

/-- C5 witness: the seed response "hello" parses to zero groups, and the
fallback over seed labels ["a", "b"] is two singleton groups. -/
theorem c5_singleton_fallback_witness :
    (seedPhase "hello" ["a", "b"]).length = 2 ∧
      (seedPhase "hello" ["a", "b"])[0]? = some (⟨1, "a", ["a"]⟩ : Group) ∧
      (seedPhase "hello" ["a", "b"])[1]? = some (⟨2, "b", ["b"]⟩ : Group) := by
  have h := c5_singleton_fallback "hello" ["a", "b"] (by decide)
  exact ⟨h.1, h.2 0 "a" (by decide), h.2 1 "b" (by decide)⟩

end Dedup
